import Mathlib

/-!
Verification development for the Yggdrasil smart peer finder
(`yggdrasil-peer-finder.py`).

The Python source is shallowly embedded here:

* strings are `List Char`;
* `re.match` against the two fixed patterns of `parse_peer_url` is embedded
  as a deterministic maximal-munch matcher (exact for these patterns: every
  repeated character class excludes the literal character that follows it,
  so greedy matching with backtracking has a unique viable split);
* the network is an oracle `Conn` mapping (host, port, protocol) to the
  outcome of `test_connection` (`none` = failure, `some q` = success with
  latency `q` milliseconds);
* Python's IEEE `float` values arising here (finite latencies and the
  `float("inf")` sentinel) are embedded as `PFloat` (a rational or `inf`);
* `concurrent.futures` batches are embedded as list traversals; completion
  order, where it matters, is an explicit parameter.
-/

/-- ASCII reading of Python's regex class `\w` (letter, digit or underscore). -/
def isWordChar (c : Char) : Bool := c.isAlphanum || c = '_'

/-- Consume an exact literal sequence of characters, returning the rest. -/
def dropLit : List Char → List Char → Option (List Char)
  | [], s => some s
  | _ :: _, [] => none
  | c :: cs, d :: ds => if c = d then dropLit cs ds else none

/-- Python `int` applied to the digit group captured by `(\d+)`. -/
def digitsToNat (ds : List Char) : Nat :=
  ds.foldl (fun n c => 10 * n + (c.toNat - 48)) 0

/-- Embedding of `re.match(r"(\w+)://\[([^\]]+)\]:(\d+)(\?.*)?", url)`
(line 180 of the source): the bracketed-IPv6 pattern.  `re.match` anchors
only the start of the string, so trailing text after the digits is ignored,
and the optional query group never affects the returned groups 1–3. -/
def ipv6Match (s : List Char) : Option (List Char × List Char × Nat) :=
  let scheme := s.takeWhile isWordChar
  if scheme = [] then none else
  match dropLit (("://[").data) (s.dropWhile isWordChar) with
  | none => none
  | some afterBracket =>
    let host := afterBracket.takeWhile (fun c => c != ']')
    if host = [] then none else
    match dropLit (("]:").data) (afterBracket.dropWhile (fun c => c != ']')) with
    | none => none
    | some afterHost =>
      let port := afterHost.takeWhile Char.isDigit
      if port = [] then none else
      some (scheme, host, digitsToNat port)

/-- Embedding of `re.match(r"(\w+)://([^:]+):(\d+)(\?.*)?", url)`
(line 184 of the source): the plain-host pattern. -/
def plainMatch (s : List Char) : Option (List Char × List Char × Nat) :=
  let scheme := s.takeWhile isWordChar
  if scheme = [] then none else
  match dropLit (("://").data) (s.dropWhile isWordChar) with
  | none => none
  | some afterScheme =>
    let host := afterScheme.takeWhile (fun c => c != ':')
    if host = [] then none else
    match dropLit ((":").data) (afterScheme.dropWhile (fun c => c != ':')) with
    | none => none
    | some afterHost =>
      let port := afterHost.takeWhile Char.isDigit
      if port = [] then none else
      some (scheme, host, digitsToNat port)

/-- Embedding of `SmartPeerTester.parse_peer_url` (lines 178–188): try the
bracketed-IPv6 pattern first, then the plain pattern; on both failing,
return the typed failure (`None, None, None` in the source, `none` here). -/
def parse_peer_url (s : List Char) : Option (List Char × List Char × Nat) :=
  match ipv6Match s with
  | some r => some r
  | none => plainMatch s

/-- Spec-side well-formedness of an address string, following the claim's
words: `scheme://host:port` with an optional `?query` suffix, where the host
is either a bracketed IPv6 literal or a plain (colon-free) host, the scheme
is a nonempty word, and the port is a nonempty digit string.  The whole
string must be consumed (no trailing text besides the query). -/
def queryOk : List Char → Bool
  | [] => true
  | c :: _ => c = '?'

/-- See `queryOk`; this is the spec-side shape, not the source's matcher. -/
def isUrlForm (s : List Char) : Bool :=
  let scheme := s.takeWhile isWordChar
  if scheme = [] then false else
  match dropLit (("://").data) (s.dropWhile isWordChar) with
  | none => false
  | some rest =>
    match rest with
    | '[' :: r =>
      let host := r.takeWhile (fun c => c != ']')
      if host = [] then false else
      match dropLit (("]:").data) (r.dropWhile (fun c => c != ']')) with
      | none => false
      | some afterHost =>
        let port := afterHost.takeWhile Char.isDigit
        if port = [] then false else queryOk (afterHost.dropWhile Char.isDigit)
    | _ =>
      let host := rest.takeWhile (fun c => c != ':')
      if host = [] then false else
      match dropLit ((":").data) (rest.dropWhile (fun c => c != ':')) with
      | none => false
      | some afterHost =>
        let port := afterHost.takeWhile Char.isDigit
        if port = [] then false else queryOk (afterHost.dropWhile Char.isDigit)

/-- Embedding of the Python `float` values that occur in this program:
finite latencies and the `float("inf")` sentinel of `test_region_fast`. -/
inductive PFloat where
  | val (q : ℚ)
  | inf
deriving DecidableEq, Repr

/-- Python `<` restricted to these values. -/
def PFloat.ltb : PFloat → PFloat → Bool
  | .val a, .val b => decide (a < b)
  | .val _, .inf => true
  | .inf, _ => false

/-- Python `<=` restricted to these values. -/
def PFloat.leb : PFloat → PFloat → Bool
  | .val a, .val b => decide (a ≤ b)
  | .val _, .inf => true
  | .inf, .val _ => false
  | .inf, .inf => true

/-- One catalog entry: the `{"address": ..., "reliability": ...}` dict rows
built by the HTML catalog parser (`reliability` may be missing, hence the
`.get("reliability", "N/A")` in `test_single_peer`). -/
structure PeerData where
  address : List Char
  reliability : Option (List Char)
deriving DecidableEq, Repr

/-- The result dict built by `test_single_peer` on success (lines 243–249). -/
structure ProbeResult where
  url : List Char
  latency : ℚ
  country : List Char
  reliability : List Char
  protocol : List Char
deriving DecidableEq, Repr

/-- Network oracle: the outcome of `SmartPeerTester.test_connection
(host, port, protocol, timeout=1)` — `none` for `(False, None)` and
`some q` for `(True, q)` with latency `q` ms.  The per-attempt timeout and
every failure mode are resolved inside the oracle; `test_connection` never
raises, so no error outcome exists. -/
abbrev Conn : Type := List Char → Nat → List Char → Option ℚ

/-- Embedding of `SmartPeerTester.test_single_peer` (lines 232–250).
`if not protocol or not host or not port or protocol == "quic": return None`
is mirrored literally; note `not port` is Python falsiness, so port `0` is
rejected here (not by the parser). -/
def test_single_peer (conn : Conn) (peer : PeerData) (country : List Char) :
    Option ProbeResult :=
  match parse_peer_url peer.address with
  | none => none
  | some (protocol, host, port) =>
    if protocol = [] ∨ host = [] ∨ port = 0 ∨ protocol = ("quic").data then none
    else
      match conn host port protocol with
      | none => none
      | some latency =>
        some { url := peer.address, latency := latency, country := country,
               reliability := peer.reliability.getD (("N/A").data),
               protocol := protocol }

/-- The per-batch results list collected by `test_region_fast` (lines
257–269): probe the deterministic sample prefix `peers[:min(sample_size,
len(peers))]`, keeping only the non-`None` outcomes.  `as_completed`
delivers these in completion order; since every aggregate taken from this
list is permutation-invariant, the embedding collects in submission
order. -/
def region_sample_results (conn : Conn) (country : List Char)
    (peers : List PeerData) (sampleSize : Nat) : List ProbeResult :=
  (peers.take (min sampleSize peers.length)).filterMap
    (fun p => test_single_peer conn p country)

/-- Embedding of `SmartPeerTester.test_region_fast` (lines 252–275), which
returns `(avg_latency, min_latency, len(results))`, or the sentinel
`(float("inf"), float("inf"), 0)` when no probe succeeded. -/
def test_region_fast (conn : Conn) (country : List Char)
    (peers : List PeerData) (sampleSize : Nat) : PFloat × PFloat × Nat :=
  match region_sample_results conn country peers sampleSize with
  | [] => (PFloat.inf, PFloat.inf, 0)
  | r :: rs =>
    let lats := (r :: rs).map (fun x => x.latency)
    (PFloat.val (lats.sum / (lats.length : ℚ)),
     PFloat.val ((rs.map (fun x => x.latency)).foldl min r.latency),
     (r :: rs).length)

/-- Embedding of `SmartPeerTester.test_all_peers_in_region` (lines
333–362): probe every peer of the chosen region, keeping the non-`None`
outcomes (collection order as in `region_sample_results`). -/
def test_all_peers_in_region (conn : Conn) (country : List Char)
    (peers : List PeerData) : List ProbeResult :=
  peers.filterMap (fun p => test_single_peer conn p country)

/-- One tuple appended to `regional_scores` in `find_best_region` (lines
297–305): `(country, avg_latency, min_latency, successful_tests,
len(peers_by_country[country]))`. -/
structure RegionScore where
  country : List Char
  avg : PFloat
  mn : PFloat
  okCount : Nat
  total : Nat
deriving DecidableEq, Repr

/-- The catalog `peers_by_country`, as an association list (Python dict
keys are unique and iterate in insertion order). -/
abbrev Catalog : Type := List (List Char × List PeerData)

/-- The regions submitted to the sampling pool in `find_best_region`:
`for country, peers in peers_by_country.items() if len(peers) >= 2`. -/
def eligible (catalog : Catalog) : Catalog :=
  catalog.filter (fun rp => decide (2 ≤ rp.2.length))

/-- The `regional_scores` tuple built for one region (see `RegionScore`). -/
def mkScore (conn : Conn) (rp : List Char × List PeerData) : RegionScore :=
  let s := test_region_fast conn rp.1 rp.2 5
  { country := rp.1, avg := s.1, mn := s.2.1, okCount := s.2.2,
    total := rp.2.length }

/-- The `regional_scores` list of `find_best_region` (lines 282–312):
region outcomes arrive in completion order (`arrival`), and only those
with `successful_tests > 0` are appended. -/
def regionScores (conn : Conn) (arrival : Catalog) : List RegionScore :=
  arrival.filterMap (fun rp =>
    if 0 < (test_region_fast conn rp.1 rp.2 5).2.2 then some (mkScore conn rp)
    else none)

/-- The sort key of line 319, `key=lambda x: (x[2], x[1])`: ascending
lexicographic comparison on `(min_latency, avg_latency)`. -/
def regionLe (s t : RegionScore) : Bool :=
  s.mn.ltb t.mn || (decide (s.mn = t.mn) && s.avg.leb t.avg)

/-- Embedding of `SmartPeerTester.find_best_region` (lines 277–331):
collect per-region scores in completion order `arrival` (a permutation of
the eligible regions), drop zero-success regions, stable-sort by
`(min_latency, avg_latency)`, and return the first region name, or `None`
when no region scored. -/
def find_best_region (conn : Conn) (arrival : Catalog) : Option (List Char) :=
  match (regionScores conn arrival).mergeSort regionLe with
  | [] => none
  | s :: _ => some s.country

/-- The sort of line 394, `region_results.sort(key=lambda x: x["latency"])`. -/
def latLe (a b : ProbeResult) : Bool := decide (a.latency ≤ b.latency)

/-- The first ranking loop of `main` (lines 397–407): walk the sorted
results, appending each result whose protocol is unseen, breaking as soon
as three results are collected (the length test runs after every element,
appended or not, exactly as in the source). -/
def pickLoop : List ProbeResult → List (List Char) → List ProbeResult →
    List ProbeResult
  | [], _, acc => acc
  | r :: rest, seen, acc =>
    if r.protocol ∈ seen then
      (if 3 ≤ acc.length then acc else pickLoop rest seen acc)
    else
      (if 3 ≤ (acc ++ [r]).length then acc ++ [r]
       else pickLoop rest (r.protocol :: seen) (acc ++ [r]))

/-- The second ranking loop of `main` (lines 410–415): walk the sorted
results again, appending each result not already in `filtered_results`,
breaking once three are collected. -/
def fillLoop : List ProbeResult → List ProbeResult → List ProbeResult
  | [], picked => picked
  | r :: rest, picked =>
    if r ∈ picked then fillLoop rest picked
    else
      (if 3 ≤ (picked ++ [r]).length then picked ++ [r]
       else fillLoop rest (picked ++ [r]))

/-- Embedding of the result-ranking portion of `main` (lines 393–415):
sort by latency, run the protocol-deduplication loop, and, if fewer than
three results were kept, run the fill loop. -/
def rank (rs : List ProbeResult) : List ProbeResult :=
  let sorted := rs.mergeSort latLe
  let picks := pickLoop sorted [] []
  if picks.length < 3 then fillLoop sorted picks else picks

/-- Spec-side ranking step 2, from its words: walk the sorted list and
greedily pick the first result seen for each distinct protocol, until `k`
distinct-protocol picks are collected or the list is exhausted. -/
def specPick : Nat → List ProbeResult → List (List Char) → List ProbeResult
  | _, [], _ => []
  | k, r :: rest, seen =>
    if k = 0 then []
    else if r.protocol ∈ seen then specPick k rest seen
    else r :: specPick (k - 1) rest (r.protocol :: seen)

/-- Spec-side ranking step 3, from its words: while slots remain, take the
next-fastest result not already picked (the first unpicked entry of the
latency-sorted list) and append it; stop when the slots are gone or no
unpicked result remains. -/
def specFill : Nat → List ProbeResult → List ProbeResult → List ProbeResult
  | 0, _, picked => picked
  | fuel + 1, sorted, picked =>
    match sorted.find? (fun x => decide (x ∉ picked)) with
    | none => picked
    | some x => specFill fuel sorted (picked ++ [x])

/-- Spec-side ranker: steps 1–4 of the spec's Result Ranker contract,
target size 3.  The output is the assembly order — protocol-diverse picks
first, fill-ins appended — with no second global sort. -/
def rank_spec (rs : List ProbeResult) : List ProbeResult :=
  let sorted := rs.mergeSort latLe
  let picks := specPick 3 sorted []
  if picks.length < 3 then specFill (3 - picks.length) sorted picks else picks

/-- Timed embedding of the batch-collection pattern shared by
`test_region_fast`, `find_best_region` and `test_all_peers_in_region`:
`for future in as_completed(futures, timeout=deadline): try:
result = future.result() ... except: continue`.  `completions` lists, in
completion order, each submitted task's completion time and its value
(`none` when the task returned `None` or raised, both absorbed by the
`try`/`except` around `future.result()`).  `as_completed` yields tasks
finishing within the deadline and then, if any task is still pending when
the deadline passes, raises `TimeoutError` from the `for` statement itself
— outside the `try`/`except`, which wraps only the loop body — so the
partial results list is discarded and the exception escapes the batch
function; this is `Except.error`. -/
def batchCollect (deadline : ℚ) :
    List (ℚ × Option ProbeResult) → Except Unit (List ProbeResult)
  | [] => Except.ok []
  | (t, r) :: rest =>
    if t ≤ deadline then
      match batchCollect deadline rest with
      | Except.ok acc =>
        Except.ok (match r with | some v => v :: acc | none => acc)
      | Except.error e => Except.error e
    else Except.error ()

/-- Durations, in seconds, of the external calls on the successful path of
`test_connection` (lines 190–227), in the order the code performs them
after `start = time.time()` (line 193): TLS-context setup (tls/wss only),
`socket.getaddrinfo` (skipped when `":" in host`), socket object creation,
and the connect (plus TLS handshake where applicable). -/
structure ProbeDurations where
  sslSetupSec : ℚ
  resolveSec : ℚ
  socketSec : ℚ
  connectSec : ℚ
deriving DecidableEq, Repr

/-- Clock-threading model of the successful path of `test_connection`:
`start = time.time()` is read at line 193, before TLS-context setup, name
resolution and socket creation; the returned value is
`(time.time() - start) * 1000` read just after the connect completes. -/
def test_connection_latency_ms (protocol : List Char) (hostHasColon : Bool)
    (d : ProbeDurations) : ℚ :=
  let start : ℚ := 0
  let afterSetup :=
    if protocol = ("tls").data ∨ protocol = ("wss").data then
      start + d.sslSetupSec
    else start
  let afterResolve :=
    if hostHasColon then afterSetup else afterSetup + d.resolveSec
  let afterSocket := afterResolve + d.socketSec
  let done := afterSocket + d.connectSec
  (done - start) * 1000

theorem takeWhile_append_stop {α} (p : α → Bool) (l : List α) (c : α)
    (r : List α) (hl : ∀ x ∈ l, p x = true) (hc : p c = false) :
    (l ++ c :: r).takeWhile p = l := by
  induction l with
  | nil => simp [List.takeWhile_cons, hc]
  | cons a as ih =>
    have ha : p a = true := hl a (by simp)
    simp only [List.cons_append, List.takeWhile_cons, ha, if_true]
    rw [ih (fun x hx => hl x (by simp [hx]))]

theorem dropWhile_append_stop {α} (p : α → Bool) (l : List α) (c : α)
    (r : List α) (hl : ∀ x ∈ l, p x = true) (hc : p c = false) :
    (l ++ c :: r).dropWhile p = c :: r := by
  induction l with
  | nil => simp [List.dropWhile_cons, hc]
  | cons a as ih =>
    have ha : p a = true := hl a (by simp)
    simp only [List.cons_append, List.dropWhile_cons, ha, if_true]
    exact ih (fun x hx => hl x (by simp [hx]))

theorem takeWhile_all {α} (p : α → Bool) (l : List α)
    (hl : ∀ x ∈ l, p x = true) : l.takeWhile p = l := by
  induction l with
  | nil => rfl
  | cons a as ih =>
    have ha : p a = true := hl a (by simp)
    simp only [List.takeWhile_cons, ha, if_true]
    rw [ih (fun x hx => hl x (by simp [hx]))]

theorem dropLit_append (lit rest : List Char) :
    dropLit lit (lit ++ rest) = some rest := by
  induction lit with
  | nil => rfl
  | cons c cs ih => simpa [dropLit] using ih

theorem takeWhile_digits_query (port query : List Char)
    (hpd : ∀ c ∈ port, c.isDigit = true) (hq : queryOk query = true) :
    (port ++ query).takeWhile Char.isDigit = port := by
  cases query with
  | nil => rw [List.append_nil]; exact takeWhile_all _ port hpd
  | cons c cs =>
    have hc : c = '?' := by simpa [queryOk] using hq
    exact takeWhile_append_stop _ port c cs hpd (by rw [hc]; decide)

/-- On a well-formed plain address, the plain pattern recovers the three
components exactly. -/
theorem plainMatch_exact (scheme host port query : List Char)
    (hs : scheme ≠ []) (hsw : ∀ c ∈ scheme, isWordChar c = true)
    (hh : host ≠ []) (hhc : ∀ c ∈ host, (c != ':') = true)
    (hp : port ≠ []) (hpd : ∀ c ∈ port, c.isDigit = true)
    (hq : queryOk query = true) :
    plainMatch (scheme ++ ':' :: '/' :: '/' :: (host ++ ':' :: (port ++ query)))
      = some (scheme, host, digitsToNat port) := by
  have h1 := takeWhile_append_stop isWordChar scheme ':'
    ('/' :: '/' :: (host ++ ':' :: (port ++ query))) hsw (by decide)
  have h2 := dropWhile_append_stop isWordChar scheme ':'
    ('/' :: '/' :: (host ++ ':' :: (port ++ query))) hsw (by decide)
  simp only [plainMatch, h1, h2, if_neg hs]
  have h3 : dropLit (("://").data) (':' :: '/' :: '/' :: (host ++ ':' :: (port ++ query)))
      = some (host ++ ':' :: (port ++ query)) :=
    dropLit_append (("://").data) (host ++ ':' :: (port ++ query))
  rw [h3]
  have h4 := takeWhile_append_stop (fun c => c != ':') host ':' (port ++ query)
    hhc (by decide)
  have h5 := dropWhile_append_stop (fun c => c != ':') host ':' (port ++ query)
    hhc (by decide)
  simp only [h4, h5, if_neg hh]
  have h6 : dropLit ((":").data) (':' :: (port ++ query)) = some (port ++ query) :=
    dropLit_append ((":").data) (port ++ query)
  rw [h6]
  dsimp only
  rw [takeWhile_digits_query port query hpd hq]
  simp [if_neg hp]

/-- On a well-formed plain address (host not beginning with `[`), the
bracketed-IPv6 pattern fails, so the plain pattern is consulted. -/
theorem ipv6Match_plain_none (scheme host port query : List Char)
    (hsw : ∀ c ∈ scheme, isWordChar c = true)
    (hh : host ≠ []) (hhb : host.head? ≠ some '[') :
    ipv6Match (scheme ++ ':' :: '/' :: '/' :: (host ++ ':' :: (port ++ query)))
      = none := by
  have h1 := takeWhile_append_stop isWordChar scheme ':'
    ('/' :: '/' :: (host ++ ':' :: (port ++ query))) hsw (by decide)
  have h2 := dropWhile_append_stop isWordChar scheme ':'
    ('/' :: '/' :: (host ++ ':' :: (port ++ query))) hsw (by decide)
  simp only [ipv6Match, h1, h2]
  by_cases hsche : scheme = []
  · simp [hsche]
  · simp only [if_neg hsche]
    cases host with
    | nil => exact absurd rfl hh
    | cons h0 hrest =>
      have hne : ¬('[' = h0) := by
        intro h
        exact hhb (by simp [← h])
      simp [dropLit, hne]

/-- On a well-formed bracketed-IPv6 address, the first pattern recovers the
three components exactly, with the brackets stripped from the host. -/
theorem ipv6Match_exact (scheme host port query : List Char)
    (hs : scheme ≠ []) (hsw : ∀ c ∈ scheme, isWordChar c = true)
    (hh : host ≠ []) (hhb : ∀ c ∈ host, (c != ']') = true)
    (hp : port ≠ []) (hpd : ∀ c ∈ port, c.isDigit = true)
    (hq : queryOk query = true) :
    ipv6Match (scheme ++ ':' :: '/' :: '/' :: '[' :: (host ++ ']' :: ':' :: (port ++ query)))
      = some (scheme, host, digitsToNat port) := by
  have h1 := takeWhile_append_stop isWordChar scheme ':'
    ('/' :: '/' :: '[' :: (host ++ ']' :: ':' :: (port ++ query))) hsw (by decide)
  have h2 := dropWhile_append_stop isWordChar scheme ':'
    ('/' :: '/' :: '[' :: (host ++ ']' :: ':' :: (port ++ query))) hsw (by decide)
  simp only [ipv6Match, h1, h2, if_neg hs]
  have h3 : dropLit (("://[").data)
      (':' :: '/' :: '/' :: '[' :: (host ++ ']' :: ':' :: (port ++ query)))
      = some (host ++ ']' :: ':' :: (port ++ query)) :=
    dropLit_append (("://[").data) (host ++ ']' :: ':' :: (port ++ query))
  rw [h3]
  have h4 := takeWhile_append_stop (fun c => c != ']') host ']' (':' :: (port ++ query))
    hhb (by decide)
  have h5 := dropWhile_append_stop (fun c => c != ']') host ']' (':' :: (port ++ query))
    hhb (by decide)
  simp only [h4, h5, if_neg hh]
  have h6 : dropLit (("]:").data) (']' :: ':' :: (port ++ query)) = some (port ++ query) :=
    dropLit_append (("]:").data) (port ++ query)
  rw [h6]
  dsimp only
  rw [takeWhile_digits_query port query hpd hq]
  simp [if_neg hp]

/-- Exact recovery for well-formed plain addresses, through the full
two-pattern `parse_peer_url`. -/
theorem parse_plain_exact (scheme host port query : List Char)
    (hs : scheme ≠ []) (hsw : ∀ c ∈ scheme, isWordChar c = true)
    (hh : host ≠ []) (hhc : ∀ c ∈ host, (c != ':') = true)
    (hhb : host.head? ≠ some '[')
    (hp : port ≠ []) (hpd : ∀ c ∈ port, c.isDigit = true)
    (hq : queryOk query = true) :
    parse_peer_url (scheme ++ ':' :: '/' :: '/' :: (host ++ ':' :: (port ++ query)))
      = some (scheme, host, digitsToNat port) := by
  unfold parse_peer_url
  rw [ipv6Match_plain_none scheme host port query hsw hh hhb]
  exact plainMatch_exact scheme host port query hs hsw hh hhc hp hpd hq

/-- Exact recovery for well-formed bracketed-IPv6 addresses, through the
full two-pattern `parse_peer_url`. -/
theorem parse_bracketed_exact (scheme host port query : List Char)
    (hs : scheme ≠ []) (hsw : ∀ c ∈ scheme, isWordChar c = true)
    (hh : host ≠ []) (hhb : ∀ c ∈ host, (c != ']') = true)
    (hp : port ≠ []) (hpd : ∀ c ∈ port, c.isDigit = true)
    (hq : queryOk query = true) :
    parse_peer_url (scheme ++ ':' :: '/' :: '/' :: '[' :: (host ++ ']' :: ':' :: (port ++ query)))
      = some (scheme, host, digitsToNat port) := by
  unfold parse_peer_url
  rw [ipv6Match_exact scheme host port query hs hsw hh hhb hp hpd hq]

/-- C5 counterexample: the claim says a port outside (0, 65535] yields a
parse failure, but `parse_peer_url` applies no range check — the regexes
only require `(\d+)` — so `tcp://example.com:99999` parses to a descriptor
with port 99999, and `tcp://example.com:0` to one with port 0. -/
theorem parse_port_out_of_range_accepted :
    parse_peer_url (("tcp://example.com:99999").data)
      = some ((("tcp").data), (("example.com").data), 99999) ∧
    ¬(99999 ≤ 65535) ∧
    parse_peer_url (("tcp://example.com:0").data)
      = some ((("tcp").data), (("example.com").data), 0) := by
  refine ⟨by decide, by decide, by decide⟩

/-- C5 amended: address parsing performs no port-range validation — any
nonempty decimal digit token after the final colon is accepted verbatim,
whatever its numeric value (0, 99999, or beyond), and a descriptor is
produced rather than a parse failure. -/
theorem parse_port_unvalidated (port : List Char) (hp : port ≠ [])
    (hpd : ∀ c ∈ port, c.isDigit = true) :
    parse_peer_url ((("tcp").data) ++ ':' :: '/' :: '/' :: ((("h").data) ++ ':' :: port))
      = some ((("tcp").data), (("h").data), digitsToNat port) := by
  have h := parse_plain_exact (("tcp").data) (("h").data) port []
    (by decide) (by decide) (by decide) (by decide) (by decide) hp hpd (by decide)
  rw [List.append_nil] at h
  exact h

/-- C5 amended witness: the port token `4294967296` (beyond even 32 bits)
is accepted. -/
theorem parse_port_unvalidated_witness :
    parse_peer_url (("tcp://h:4294967296").data)
      = some ((("tcp").data), (("h").data), 4294967296) := by
  have h := parse_port_unvalidated (("4294967296").data) (by decide) (by decide)
  exact h

/-- C6 counterexample: the claim says the scheme is lower-cased at parse
time, but `parse_peer_url` returns `match.group(1)` verbatim, so
`TLS://example.com:443` yields protocol `TLS`, not `tls`. -/
theorem parse_scheme_not_lowercased :
    parse_peer_url (("TLS://example.com:443").data)
      = some ((("TLS").data), (("example.com").data), 443) ∧
    (("TLS").data) ≠ (("tls").data) := by
  refine ⟨by decide, by decide⟩

/-- C6 amended: for every successfully matched plain address the returned
protocol field is the scheme exactly as written in the input — verbatim,
case preserved, with no validation against the known-protocol set (any
nonempty word-character scheme is accepted at parse time). -/
theorem parse_scheme_verbatim (scheme host port query : List Char)
    (hs : scheme ≠ []) (hsw : ∀ c ∈ scheme, isWordChar c = true)
    (hh : host ≠ []) (hhc : ∀ c ∈ host, (c != ':') = true)
    (hhb : host.head? ≠ some '[')
    (hp : port ≠ []) (hpd : ∀ c ∈ port, c.isDigit = true)
    (hq : queryOk query = true) :
    parse_peer_url (scheme ++ ':' :: '/' :: '/' :: (host ++ ':' :: (port ++ query)))
      = some (scheme, host, digitsToNat port) :=
  parse_plain_exact scheme host port query hs hsw hh hhc hhb hp hpd hq

/-- C6 amended witness: an upper-case unknown scheme survives verbatim. -/
theorem parse_scheme_verbatim_witness :
    parse_peer_url (("QUIC://h:1").data)
      = some ((("QUIC").data), (("h").data), 1) := by
  have h := parse_scheme_verbatim (("QUIC").data) (("h").data) (("1").data) []
    (by decide) (by decide) (by decide) (by decide) (by decide) (by decide)
    (by decide) (by decide)
  rw [List.append_nil] at h
  exact h

/-- C7 counterexample: `re.match` anchors only the start of the string, so
the malformed address `tcp://host:12:34` (its "port" is not a digit
string, and `:34` is not a `?query` suffix) does not yield a typed
failure: the matching prefix wins and parsing returns `(tcp, host, 12)`. -/
theorem parse_malformed_accepted :
    isUrlForm (("tcp://host:12:34").data) = false ∧
    parse_peer_url (("tcp://host:12:34").data)
      = some ((("tcp").data), (("host").data), 12) := by
  refine ⟨by decide, by decide⟩

/-- C7 amended: for every well-formed `scheme://host:port[?query]` string,
parsing recovers scheme, host and port exactly — for bracketed IPv6
literals the host is returned without the brackets — and parsing is total
(it returns an `Option`, never raises); but the match is prefix-based, so
a malformed string whose prefix matches a pattern parses successfully
instead of failing (see the counterexample). -/
theorem parse_wellformed_exact :
    (∀ scheme host port query : List Char,
      scheme ≠ [] → (∀ c ∈ scheme, isWordChar c = true) →
      host ≠ [] → (∀ c ∈ host, (c != ':') = true) → host.head? ≠ some '[' →
      port ≠ [] → (∀ c ∈ port, c.isDigit = true) → queryOk query = true →
      parse_peer_url (scheme ++ ':' :: '/' :: '/' :: (host ++ ':' :: (port ++ query)))
        = some (scheme, host, digitsToNat port)) ∧
    (∀ scheme host port query : List Char,
      scheme ≠ [] → (∀ c ∈ scheme, isWordChar c = true) →
      host ≠ [] → (∀ c ∈ host, (c != ']') = true) →
      port ≠ [] → (∀ c ∈ port, c.isDigit = true) → queryOk query = true →
      parse_peer_url (scheme ++ ':' :: '/' :: '/' :: '[' :: (host ++ ']' :: ':' :: (port ++ query)))
        = some (scheme, host, digitsToNat port)) :=
  ⟨parse_plain_exact, parse_bracketed_exact⟩

/-- C7 amended witness: the spec's own IPv6 example recovers exactly, with
brackets stripped, and a plain address with a query suffix too. -/
theorem parse_wellformed_exact_witness :
    parse_peer_url (("tls://[2001:db8::1]:443").data)
      = some ((("tls").data), (("2001:db8::1").data), 443) ∧
    parse_peer_url (("tcp://example.com:80?key=val").data)
      = some ((("tcp").data), (("example.com").data), 80) := by
  constructor
  · have h := parse_wellformed_exact.2 (("tls").data) (("2001:db8::1").data)
      (("443").data) [] (by decide) (by decide) (by decide) (by decide)
      (by decide) (by decide) (by decide)
    rw [List.append_nil] at h
    exact h
  · have h := parse_wellformed_exact.1 (("tcp").data) (("example.com").data)
      (("80").data) (("?key=val").data) (by decide) (by decide) (by decide)
      (by decide) (by decide) (by decide) (by decide) (by decide)
    exact h

/-- A concrete successful probe record, used for batch evaluations. -/
def resultA : ProbeResult :=
  { url := ("tls://a:1").data, latency := 10, country := ("x").data,
    reliability := ("N/A").data, protocol := ("tls").data }

/-- A second concrete successful probe record. -/
def resultB : ProbeResult :=
  { url := ("tcp://b:2").data, latency := 20, country := ("x").data,
    reliability := ("N/A").data, protocol := ("tcp").data }

/-- C1: with the overall deadline 3 (as in `test_region_fast`), a batch in
which one submitted task is still unfinished when the deadline fires does
NOT return the completed partial results: `as_completed` raises
`TimeoutError` at the `for` statement, outside the loop-body
`try`/`except`, so the partial list is discarded and the exception escapes
the batch function (`Except.error`).  Only a batch whose tasks all finish
within the deadline returns its results.  This contradicts the spec's
"stop waiting and return whatever has completed so far". -/
theorem batch_overall_timeout_raises :
    batchCollect 3 [(1, some resultA), (5, some resultB)] = Except.error () ∧
    batchCollect 3 [(1, some resultA), (2, some resultB)]
      = Except.ok [resultA, resultB] := by
  refine ⟨by rfl, by rfl⟩

/-- C4 counterexample: the measured interval is not "just before connect
to just after connect": with name resolution taking 5s and the connect 2s
on the plain-TCP path, the reported latency is 7000 ms, not 2000 ms,
because `start = time.time()` is read before `socket.getaddrinfo` runs. -/
theorem latency_includes_resolution :
    test_connection_latency_ms (("tcp").data) false
      { sslSetupSec := 0, resolveSec := 5, socketSec := 0, connectSec := 2 }
      = 7000 ∧ (7000 : ℚ) ≠ 2 * 1000 := by
  constructor
  · simp only [test_connection_latency_ms]
    norm_num
  · norm_num

/-- C4 amended: the reported latency measures the interval from the
`time.time()` call at the top of `test_connection` — before TLS-context
setup (tls/wss), name resolution (skipped only for colon-containing IPv6
literal hosts) and socket creation — to just after the connect/handshake,
so it is the sum of all those durations, times 1000; and the timer is the
wall clock `time.time()`, not a monotonic clock. -/
theorem latency_spans_setup_resolve_connect (protocol : List Char)
    (hostHasColon : Bool) (d : ProbeDurations) :
    test_connection_latency_ms protocol hostHasColon d =
      ((if protocol = ("tls").data ∨ protocol = ("wss").data then d.sslSetupSec else 0)
        + (if hostHasColon then 0 else d.resolveSec)
        + d.socketSec + d.connectSec) * 1000 := by
  simp only [test_connection_latency_ms]
  split <;> split <;> ring

/-- C8: when every sampled peer of a region fails (its probe outcome is
`None`), `test_region_fast` returns the sentinel
`(float("inf"), float("inf"), 0)` — and, being total, never raises. -/
theorem region_all_fail_sentinel (conn : Conn) (country : List Char)
    (peers : List PeerData)
    (h : ∀ p ∈ peers.take (min 5 peers.length),
      test_single_peer conn p country = none) :
    test_region_fast conn country peers 5 = (PFloat.inf, PFloat.inf, 0) := by
  have hnil : region_sample_results conn country peers 5 = [] :=
    List.filterMap_eq_nil_iff.mpr h
  unfold test_region_fast
  rw [hnil]

/-- A network oracle under which every connection attempt fails. -/
def connFail : Conn := fun _ _ _ => none

/-- A network oracle under which every connection attempt succeeds in 5 ms. -/
def connOk : Conn := fun _ _ _ => some 5

/-- A two-peer region used in witnesses. -/
def peersW : List PeerData :=
  [⟨("tls://a:1").data, none⟩, ⟨("tcp://b:2").data, some (("100%").data)⟩]

/-- C8 witness: a concrete dead region produces the sentinel. -/
theorem region_all_fail_sentinel_witness :
    (∀ p ∈ peersW.take (min 5 peersW.length),
      test_single_peer connFail p (("x").data) = none) ∧
    test_region_fast connFail (("x").data) peersW 5
      = (PFloat.inf, PFloat.inf, 0) :=
  ⟨by decide, region_all_fail_sentinel connFail (("x").data) peersW (by decide)⟩

/-- C9: every record of the sampling-phase or exhaustive-phase results
list comes from a `test_single_peer` that returned `some`: its address
parsed, its protocol is not `quic`, its port is nonzero, and its
connection attempt succeeded with the very latency stored in the record —
so no downstream consumer ever sees a failed probe or an absent latency. -/
theorem results_only_successes (conn : Conn) (country : List Char)
    (peers : List PeerData) (r : ProbeResult)
    (h : r ∈ region_sample_results conn country peers 5 ∨
         r ∈ test_all_peers_in_region conn country peers) :
    ∃ peer, peer ∈ peers ∧ test_single_peer conn peer country = some r ∧
      ∃ protocol host port lat,
        parse_peer_url peer.address = some (protocol, host, port) ∧
        protocol ≠ (("quic").data) ∧ port ≠ 0 ∧
        conn host port protocol = some lat ∧
        r.latency = lat ∧ r.url = peer.address := by
  have hmem : ∃ peer ∈ peers, test_single_peer conn peer country = some r := by
    cases h with
    | inl h1 =>
      obtain ⟨p, hp, hps⟩ := List.mem_filterMap.mp h1
      exact ⟨p, List.mem_of_mem_take hp, hps⟩
    | inr h2 =>
      obtain ⟨p, hp, hps⟩ := List.mem_filterMap.mp h2
      exact ⟨p, hp, hps⟩
  obtain ⟨peer, hpe, hps⟩ := hmem
  refine ⟨peer, hpe, hps, ?_⟩
  unfold test_single_peer at hps
  cases hpp : parse_peer_url peer.address with
  | none => rw [hpp] at hps; exact absurd hps (by simp)
  | some tri =>
    obtain ⟨protocol, host, port⟩ := tri
    rw [hpp] at hps
    dsimp only at hps
    by_cases hcond : protocol = [] ∨ host = [] ∨ port = 0 ∨ protocol = ("quic").data
    · rw [if_pos hcond] at hps; exact absurd hps (by simp)
    · rw [if_neg hcond] at hps
      cases hc : conn host port protocol with
      | none => rw [hc] at hps; exact absurd hps (by simp)
      | some lat =>
        rw [hc] at hps
        push_neg at hcond
        obtain ⟨h1, h2, h3, h4⟩ := hcond
        have hr := Option.some.inj hps
        refine ⟨protocol, host, port, lat, rfl, h4, h3, hc, ?_, ?_⟩
        · rw [← hr]
        · rw [← hr]

/-- The single peer probed in the C9 witness. -/
def peerW : PeerData := ⟨("tls://a:1").data, none⟩

/-- The record `test_single_peer` builds for `peerW` under `connOk`. -/
def resultW : ProbeResult :=
  { url := ("tls://a:1").data, latency := 5, country := ("x").data,
    reliability := ("N/A").data, protocol := ("tls").data }

/-- C9 witness: a concrete exhaustive-phase record traced back to its
successful probe. -/
theorem results_only_successes_witness :
    (resultW ∈ test_all_peers_in_region connOk (("x").data) [peerW]) ∧
    ∃ peer, peer ∈ [peerW] ∧
      test_single_peer connOk peer (("x").data) = some resultW ∧
      ∃ protocol host port lat,
        parse_peer_url peer.address = some (protocol, host, port) ∧
        protocol ≠ (("quic").data) ∧ port ≠ 0 ∧
        connOk host port protocol = some lat ∧
        resultW.latency = lat ∧ resultW.url = peer.address :=
  ⟨by decide,
    results_only_successes connOk (("x").data) [peerW] resultW (Or.inr (by decide))⟩


theorem specPick_zero (l : List ProbeResult) (seen : List (List Char)) :
    specPick 0 l seen = [] := by
  cases l <;> simp [specPick]

theorem pickLoop_eq_specPick (l : List ProbeResult) :
    ∀ (seen : List (List Char)) (acc : List ProbeResult), acc.length < 3 →
    pickLoop l seen acc = acc ++ specPick (3 - acc.length) l seen := by
  induction l with
  | nil => intro seen acc h; simp [pickLoop, specPick]
  | cons r rest ih =>
    intro seen acc h
    simp only [pickLoop, specPick]
    rw [if_neg (show ¬(3 - acc.length = 0) by omega)]
    by_cases hseen : r.protocol ∈ seen
    · rw [if_pos hseen, if_pos hseen, if_neg (by omega), ih seen acc h]
    · rw [if_neg hseen, if_neg hseen]
      have hlapp : (acc ++ [r]).length = acc.length + 1 := by simp
      by_cases h3 : 3 ≤ (acc ++ [r]).length
      · rw [if_pos h3]
        have h1 : 3 - acc.length - 1 = 0 := by omega
        rw [h1, specPick_zero]
      · rw [if_neg h3]
        rw [ih (r.protocol :: seen) (acc ++ [r]) (by omega)]
        rw [hlapp, List.append_assoc, Nat.sub_sub]
        rfl

theorem find?_append_of_none {p : ProbeResult → Bool} (P l : List ProbeResult)
    (hP : ∀ x ∈ P, p x = false) : (P ++ l).find? p = l.find? p := by
  induction P with
  | nil => rfl
  | cons a as ih =>
    have ha := hP a (by simp)
    rw [List.cons_append, List.find?_cons_of_neg _ (by simp [ha])]
    exact ih (fun x hx => hP x (by simp [hx]))

theorem fillLoop_eq_specFill (l : List ProbeResult) :
    ∀ (P picked : List ProbeResult), (∀ x ∈ P, x ∈ picked) →
    picked.length < 3 →
    fillLoop l picked = specFill (3 - picked.length) (P ++ l) picked := by
  induction l with
  | nil =>
    intro P picked hP h
    obtain ⟨f, hf⟩ : ∃ f, 3 - picked.length = f + 1 := ⟨2 - picked.length, by omega⟩
    have hfind : ((P ++ ([] : List ProbeResult)).find?
        (fun x => decide (x ∉ picked))) = none := by
      rw [List.append_nil]
      exact List.find?_eq_none.mpr (fun x hx => by simp [hP x hx])
    rw [hf]
    simp only [fillLoop, specFill, hfind]
  | cons r rest ih =>
    intro P picked hP h
    by_cases hr : r ∈ picked
    · have e1 : fillLoop (r :: rest) picked = fillLoop rest picked := by
        simp only [fillLoop, if_pos hr]
      have hP2 : ∀ x ∈ P ++ [r], x ∈ picked := by
        intro x hx
        rcases List.mem_append.mp hx with h1 | h1
        · exact hP x h1
        · simp at h1; rw [h1]; exact hr
      rw [e1, ih (P ++ [r]) picked hP2 h, List.append_assoc]
      rfl
    · obtain ⟨f, hf⟩ : ∃ f, 3 - picked.length = f + 1 := ⟨2 - picked.length, by omega⟩
      have hfind : ((P ++ r :: rest).find? (fun x => decide (x ∉ picked)))
          = some r := by
        rw [find?_append_of_none P (r :: rest) (fun x hx => by simp [hP x hx])]
        exact List.find?_cons_of_pos _ (by simp [hr])
      rw [hf]
      simp only [fillLoop, specFill, hfind, if_neg hr]
      have hlapp : (picked ++ [r]).length = picked.length + 1 := by simp
      by_cases h3 : 3 ≤ (picked ++ [r]).length
      · rw [if_pos h3]
        have hf0 : f = 0 := by omega
        rw [hf0]
        rfl
      · rw [if_neg h3]
        have hP2 : ∀ x ∈ P ++ [r], x ∈ picked ++ [r] := by
          intro x hx
          rcases List.mem_append.mp hx with h1 | h1
          · exact List.mem_append_left _ (hP x h1)
          · exact List.mem_append_right _ h1
        rw [ih (P ++ [r]) (picked ++ [r]) hP2 (by omega)]
        have hff : 3 - (picked ++ [r]).length = f := by omega
        rw [hff, List.append_assoc]
        rfl

/-- C2: the ranking code of `main` computes exactly the spec's four-step
assembly. -/
theorem rank_eq_rank_spec (rs : List ProbeResult) : rank rs = rank_spec rs := by
  simp only [rank, rank_spec]
  have h1 := pickLoop_eq_specPick (rs.mergeSort latLe) [] [] (by simp)
  simp only [List.nil_append, List.length_nil, Nat.sub_zero] at h1
  rw [h1]
  by_cases h : (specPick 3 (rs.mergeSort latLe) []).length < 3
  · rw [if_pos h, if_pos h]
    have h2 := fillLoop_eq_specFill (rs.mergeSort latLe) []
      (specPick 3 (rs.mergeSort latLe) []) (by simp) h
    simpa using h2
  · rw [if_neg h, if_neg h]

theorem specPick_sublist (l : List ProbeResult) :
    ∀ (k : Nat) (seen : List (List Char)), List.Sublist (specPick k l seen) l := by
  induction l with
  | nil => intro k seen; simp [specPick]
  | cons r rest ih =>
    intro k seen
    simp only [specPick]
    by_cases hk : k = 0
    · rw [if_pos hk]; exact List.nil_sublist _
    · rw [if_neg hk]
      by_cases hseen : r.protocol ∈ seen
      · rw [if_pos hseen]; exact (ih k seen).cons r
      · rw [if_neg hseen]; exact (ih (k - 1) (r.protocol :: seen)).cons₂ r

theorem specPick_length_le (l : List ProbeResult) :
    ∀ (k : Nat) (seen : List (List Char)), (specPick k l seen).length ≤ k := by
  induction l with
  | nil => intro k seen; simp [specPick]
  | cons r rest ih =>
    intro k seen
    simp only [specPick]
    by_cases hk : k = 0
    · rw [if_pos hk]; simp
    · rw [if_neg hk]
      by_cases hseen : r.protocol ∈ seen
      · rw [if_pos hseen]; exact ih k seen
      · rw [if_neg hseen]
        simp only [List.length_cons]
        have := ih (k - 1) (r.protocol :: seen)
        omega

theorem fillLoop_le3 (l : List ProbeResult) :
    ∀ picked : List ProbeResult, picked.length < 3 →
    (fillLoop l picked).length ≤ 3 := by
  induction l with
  | nil => intro picked h; simp only [fillLoop]; omega
  | cons r rest ih =>
    intro picked h
    simp only [fillLoop]
    by_cases hr : r ∈ picked
    · rw [if_pos hr]; exact ih picked h
    · rw [if_neg hr]
      have hlapp : (picked ++ [r]).length = picked.length + 1 := by simp
      by_cases h3 : 3 ≤ (picked ++ [r]).length
      · rw [if_pos h3]; omega
      · rw [if_neg h3]; exact ih (picked ++ [r]) (by omega)

theorem filter_mem_eq_of_sublist_nodup {s l : List ProbeResult}
    (hsub : List.Sublist s l) (hnd : l.Nodup) :
    l.filter (fun x => decide (x ∈ s)) = s := by
  induction hsub with
  | slnil => rfl
  | cons a hsub ih =>
    rename_i l1 l2
    have ha := (List.nodup_cons.mp hnd).1
    have has : a ∉ l1 := fun h => ha (hsub.subset h)
    rw [List.filter_cons]
    have hfil : decide (a ∈ l1) = false := by simp [has]
    rw [hfil]
    simp only [Bool.false_eq_true, if_false]
    exact ih (List.nodup_cons.mp hnd).2
  | cons₂ a hsub ih =>
    rename_i l1 l2
    have ha := (List.nodup_cons.mp hnd).1
    rw [List.filter_cons]
    have hfil : decide (a ∈ a :: l1) = true := by simp
    rw [hfil]
    simp only [if_true]
    have hcongr : l2.filter (fun x => decide (x ∈ a :: l1))
        = l2.filter (fun x => decide (x ∈ l1)) := by
      apply List.filter_congr
      intro x hx
      have hxa : x ≠ a := fun he => ha (he ▸ hx)
      simp [List.mem_cons, hxa]
    rw [hcongr, ih (List.nodup_cons.mp hnd).2]

theorem fillLoop_length (l : List ProbeResult) :
    ∀ picked : List ProbeResult, l.Nodup → picked.length < 3 →
    (fillLoop l picked).length
      = min 3 (picked.length + (l.filter (fun x => decide (x ∉ picked))).length) := by
  induction l with
  | nil =>
    intro picked _ h
    simp only [fillLoop, List.filter_nil, List.length_nil, Nat.add_zero]
    omega
  | cons r rest ih =>
    intro picked hnd h
    obtain ⟨hra, hrnd⟩ := List.nodup_cons.mp hnd
    simp only [fillLoop]
    by_cases hr : r ∈ picked
    · rw [if_pos hr, ih picked hrnd h]
      have hfil : (r :: rest).filter (fun x => decide (x ∉ picked))
          = rest.filter (fun x => decide (x ∉ picked)) := by simp [hr]
      rw [hfil]
    · rw [if_neg hr]
      have hfil : (r :: rest).filter (fun x => decide (x ∉ picked))
          = r :: rest.filter (fun x => decide (x ∉ picked)) := by simp [hr]
      rw [hfil]
      have hlapp : (picked ++ [r]).length = picked.length + 1 := by simp
      by_cases h3 : 3 ≤ (picked ++ [r]).length
      · rw [if_pos h3, hlapp]
        simp only [List.length_cons]
        omega
      · rw [if_neg h3]
        rw [ih (picked ++ [r]) hrnd (by omega)]
        have hfil2 : rest.filter (fun x => decide (x ∉ picked ++ [r]))
            = rest.filter (fun x => decide (x ∉ picked)) := by
          apply List.filter_congr
          intro x hx
          have hxr : x ≠ r := fun he => hra (he ▸ hx)
          simp [List.mem_append, hxr]
        rw [hfil2, hlapp]
        simp only [List.length_cons]
        omega

/-- C10: the final shortlist never exceeds 3 entries, and on pairwise
distinct results it has exactly `min 3 n` entries. -/
theorem rank_shortlist_length (rs : List ProbeResult) :
    (rank rs).length ≤ 3 ∧
    (rs.Nodup → (rank rs).length = min 3 rs.length) := by
  simp only [rank]
  have hpicks := pickLoop_eq_specPick (rs.mergeSort latLe) [] [] (by simp)
  simp only [List.nil_append, List.length_nil, Nat.sub_zero] at hpicks
  rw [hpicks]
  have hsub : List.Sublist (specPick 3 (rs.mergeSort latLe) []) (rs.mergeSort latLe) :=
    specPick_sublist (rs.mergeSort latLe) 3 []
  have hlen3 : (specPick 3 (rs.mergeSort latLe) []).length ≤ 3 :=
    specPick_length_le (rs.mergeSort latLe) 3 []
  have hslen : (rs.mergeSort latLe).length = rs.length := by simp
  constructor
  · by_cases h : (specPick 3 (rs.mergeSort latLe) []).length < 3
    · rw [if_pos h]; exact fillLoop_le3 (rs.mergeSort latLe) _ h
    · rw [if_neg h]; exact hlen3
  · intro hnd
    have hnds : (rs.mergeSort latLe).Nodup :=
      ((List.mergeSort_perm rs latLe).nodup_iff).mpr hnd
    by_cases h : (specPick 3 (rs.mergeSort latLe) []).length < 3
    · rw [if_pos h]
      rw [fillLoop_length (rs.mergeSort latLe) _ hnds h]
      have hsplit := @List.length_eq_length_filter_add ProbeResult
        (rs.mergeSort latLe) (fun x => decide (x ∈ specPick 3 (rs.mergeSort latLe) []))
      rw [filter_mem_eq_of_sublist_nodup hsub hnds] at hsplit
      have hcongr : (rs.mergeSort latLe).filter
            (fun x => !(decide (x ∈ specPick 3 (rs.mergeSort latLe) [])))
          = (rs.mergeSort latLe).filter
            (fun x => decide (x ∉ specPick 3 (rs.mergeSort latLe) [])) := by
        apply List.filter_congr
        intro x _
        simp [decide_not]
      rw [hcongr] at hsplit
      rw [← hslen]
      congr 1
      omega
    · rw [if_neg h]
      have h3 : (specPick 3 (rs.mergeSort latLe) []).length = 3 := by omega
      have hge : 3 ≤ (rs.mergeSort latLe).length := by
        have := hsub.length_le
        omega
      rw [← hslen, h3, Nat.min_eq_left hge]

/-- A third concrete probe record (protocol ws). -/
def resultC : ProbeResult :=
  { url := ("ws://c:3").data, latency := 30, country := ("x").data,
    reliability := ("N/A").data, protocol := ("ws").data }

/-- A fourth concrete probe record (protocol tls again). -/
def resultD : ProbeResult :=
  { url := ("tls://d:4").data, latency := 40, country := ("x").data,
    reliability := ("N/A").data, protocol := ("tls").data }

/-- C10 witness: four pairwise-distinct results (three distinct protocols)
yield a shortlist of exactly `min 3 4 = 3` entries. -/
theorem rank_shortlist_length_witness :
    ([resultA, resultB, resultC, resultD] : List ProbeResult).Nodup ∧
    (rank [resultA, resultB, resultC, resultD]).length = min 3 4 :=
  ⟨by decide,
    (rank_shortlist_length [resultA, resultB, resultC, resultD]).2 (by decide)⟩

theorem PFloat.leb_refl (x : PFloat) : x.leb x = true := by
  cases x <;> simp [PFloat.leb]

theorem PFloat.ltb_irrefl (x : PFloat) : x.ltb x = false := by
  cases x <;> simp [PFloat.ltb]

theorem PFloat.leb_total (x y : PFloat) : x.leb y || y.leb x := by
  cases x <;> cases y <;> simp [PFloat.leb]
  exact le_total _ _

theorem PFloat.trichotomy (x y : PFloat) :
    x.ltb y = true ∨ x = y ∨ y.ltb x = true := by
  cases x with
  | val a =>
    cases y with
    | val b =>
      rcases lt_trichotomy a b with h | h | h
      · exact Or.inl (by simp [PFloat.ltb, h])
      · exact Or.inr (Or.inl (by rw [h]))
      · exact Or.inr (Or.inr (by simp [PFloat.ltb, h]))
    | inf => exact Or.inl (by simp [PFloat.ltb])
  | inf =>
    cases y with
    | val b => exact Or.inr (Or.inr (by simp [PFloat.ltb]))
    | inf => exact Or.inr (Or.inl rfl)

theorem PFloat.ltb_trans {a b c : PFloat} (h1 : a.ltb b = true)
    (h2 : b.ltb c = true) : a.ltb c = true := by
  cases a <;> cases b <;> cases c <;> simp_all [PFloat.ltb]
  exact lt_trans h1 h2

theorem PFloat.leb_trans {a b c : PFloat} (h1 : a.leb b = true)
    (h2 : b.leb c = true) : a.leb c = true := by
  cases a <;> cases b <;> cases c <;> simp_all [PFloat.leb]
  exact le_trans h1 h2

theorem regionLe_refl (s : RegionScore) : regionLe s s = true := by
  simp [regionLe, PFloat.leb_refl]

theorem regionLe_total (s t : RegionScore) : regionLe s t || regionLe t s := by
  rcases PFloat.trichotomy s.mn t.mn with h | h | h
  · simp [regionLe, h]
  · have hle := PFloat.leb_total s.avg t.avg
    simp only [Bool.or_eq_true] at hle
    simp only [regionLe, h, Bool.or_eq_true, Bool.and_eq_true, decide_eq_true_eq]
    tauto
  · simp [regionLe, h]

theorem regionLe_trans (a b c : RegionScore) (hab : regionLe a b)
    (hbc : regionLe b c) : regionLe a c := by
  simp only [regionLe, Bool.or_eq_true, Bool.and_eq_true,
    decide_eq_true_eq] at hab hbc ⊢
  rcases hab with h1 | ⟨h1, h1'⟩ <;> rcases hbc with h2 | ⟨h2, h2'⟩
  · exact Or.inl (PFloat.ltb_trans h1 h2)
  · exact Or.inl (h2 ▸ h1)
  · exact Or.inl (h1 ▸ h2)
  · exact Or.inr ⟨h1.trans h2, PFloat.leb_trans h1' h2'⟩

theorem mem_regionScores {conn : Conn} {arrival : Catalog} {s : RegionScore} :
    s ∈ regionScores conn arrival ↔
    ∃ rp ∈ arrival, 0 < (test_region_fast conn rp.1 rp.2 5).2.2 ∧
      s = mkScore conn rp := by
  simp only [regionScores, List.mem_filterMap]
  constructor
  · rintro ⟨rp, hmem, hsome⟩
    by_cases hc : 0 < (test_region_fast conn rp.1 rp.2 5).2.2
    · rw [if_pos hc] at hsome
      exact ⟨rp, hmem, hc, (Option.some.inj hsome).symm⟩
    · rw [if_neg hc] at hsome
      exact absurd hsome (by simp)
  · rintro ⟨rp, hmem, hc, hs⟩
    exact ⟨rp, hmem, by rw [if_pos hc, hs]⟩

/-- C3: region selection considers exactly the regions with at least two
candidate peers, discards zero-success regions, sorts by the
`(min_latency, avg_latency)` tuple ascending, and returns a region whose
tuple is least among all eligible regions with a success; with no such
region it returns `None` rather than raising. -/
theorem find_best_region_spec (conn : Conn) (catalog : Catalog)
    (arrival : Catalog) (hperm : arrival.Perm (eligible catalog)) :
    (find_best_region conn arrival = none ↔
      ∀ rp ∈ eligible catalog, (test_region_fast conn rp.1 rp.2 5).2.2 = 0) ∧
    (∀ c, find_best_region conn arrival = some c →
      ∃ rp ∈ eligible catalog, rp.1 = c ∧
        0 < (test_region_fast conn rp.1 rp.2 5).2.2 ∧
        ∀ rp2 ∈ eligible catalog,
          0 < (test_region_fast conn rp2.1 rp2.2 5).2.2 →
          regionLe (mkScore conn rp) (mkScore conn rp2) = true) := by
  have hm : ∀ s : RegionScore, s ∈ regionScores conn arrival ↔
      ∃ rp ∈ eligible catalog, 0 < (test_region_fast conn rp.1 rp.2 5).2.2 ∧
        s = mkScore conn rp := by
    intro s
    rw [mem_regionScores]
    constructor
    · rintro ⟨rp, h1, h2, h3⟩
      exact ⟨rp, hperm.subset h1, h2, h3⟩
    · rintro ⟨rp, h1, h2, h3⟩
      exact ⟨rp, hperm.symm.subset h1, h2, h3⟩
  unfold find_best_region
  cases hsort : (regionScores conn arrival).mergeSort regionLe with
  | nil =>
    have hempty : regionScores conn arrival = [] := by
      have hp := List.mergeSort_perm (regionScores conn arrival) regionLe
      rw [hsort] at hp
      exact hp.symm.eq_nil
    constructor
    · constructor
      · intro _ rp hrp
        by_contra hpos
        have hmem : mkScore conn rp ∈ regionScores conn arrival :=
          (hm _).mpr ⟨rp, hrp, Nat.pos_of_ne_zero hpos, rfl⟩
        rw [hempty] at hmem
        exact absurd hmem (List.not_mem_nil _)
      · intro _; rfl
    · intro c hc
      exact absurd hc (by simp)
  | cons s0 tail =>
    constructor
    · constructor
      · intro h
        exact absurd h (by simp)
      · intro hall
        exfalso
        have hempty : regionScores conn arrival = [] := by
          unfold regionScores
          rw [List.filterMap_eq_nil_iff]
          intro rp hrp
          have h0 := hall rp (hperm.subset hrp)
          rw [if_neg (by omega)]
        have hp := List.mergeSort_perm (regionScores conn arrival) regionLe
        rw [hsort, hempty] at hp
        exact absurd hp.length_eq (by simp)
    · intro c hc
      have hceq : s0.country = c := by simpa using hc
      have hs0 : s0 ∈ regionScores conn arrival := by
        have hmem : s0 ∈ (regionScores conn arrival).mergeSort regionLe := by
          rw [hsort]; exact List.mem_cons_self _ _
        exact List.mem_mergeSort.mp hmem
      obtain ⟨rp, hrpe, hpos, hseq⟩ := (hm s0).mp hs0
      refine ⟨rp, hrpe, ?_, hpos, ?_⟩
      · rw [← hceq, hseq]
        rfl
      · intro rp2 hrp2 hpos2
        have hs2 : mkScore conn rp2 ∈ regionScores conn arrival :=
          (hm _).mpr ⟨rp2, hrp2, hpos2, rfl⟩
        have hs2m : mkScore conn rp2 ∈ (regionScores conn arrival).mergeSort regionLe :=
          List.mem_mergeSort.mpr hs2
        rw [hsort] at hs2m
        rw [← hseq]
        rcases List.mem_cons.mp hs2m with he | ht
        · rw [he]
          exact regionLe_refl s0
        · have hsorted := List.sorted_mergeSort
            regionLe_trans regionLe_total (regionScores conn arrival)
          rw [hsort] at hsorted
          exact (List.pairwise_cons.mp hsorted).1 _ ht

/-- First peer of the witness region `a`. -/
def peerA1 : PeerData := ⟨("tls://a1:1").data, none⟩

/-- Second peer of the witness region `a`. -/
def peerA2 : PeerData := ⟨("tcp://a2:2").data, none⟩

/-- Sole peer of the witness region `b` (too small to be eligible). -/
def peerB1 : PeerData := ⟨("tls://b1:3").data, none⟩

/-- A concrete two-region catalog: `a` has two peers, `b` only one. -/
def catalogW : Catalog :=
  [(("a").data, [peerA1, peerA2]), (("b").data, [peerB1])]

/-- C3 witness: the theorem applied to the concrete catalog, with the
completion order taken to be the submission order. -/
theorem find_best_region_spec_witness :
    List.Perm (eligible catalogW) (eligible catalogW) ∧
    ((find_best_region connOk (eligible catalogW) = none ↔
      ∀ rp ∈ eligible catalogW,
        (test_region_fast connOk rp.1 rp.2 5).2.2 = 0) ∧
     (∀ c, find_best_region connOk (eligible catalogW) = some c →
       ∃ rp ∈ eligible catalogW, rp.1 = c ∧
         0 < (test_region_fast connOk rp.1 rp.2 5).2.2 ∧
         ∀ rp2 ∈ eligible catalogW,
           0 < (test_region_fast connOk rp2.1 rp2.2 5).2.2 →
           regionLe (mkScore connOk rp) (mkScore connOk rp2) = true)) :=
  ⟨List.Perm.refl _,
    find_best_region_spec connOk catalogW (eligible catalogW) (List.Perm.refl _)⟩
